import Mathlib

/-!
Shallow embedding and verification of the `Yedit` document-editing engine
embedded in `roles/lib_openshift/library/oc_adm_ca_server_cert.py`.

Python values (as produced by YAML/JSON loading) are modelled by `Value`:
mappings are association lists with string keys in insertion order,
sequences are lists, scalars are strings, integers, booleans or `null`
(Python `None`).  Python's in-place mutation of the document tree is
rendered functionally: every mutating operation returns the document that
the store observes afterwards, and a raised exception is modelled by a
`PyOut.exc` outcome paired with the document state at the moment of the
raise.
-/

/-- A Python value as loaded from YAML/JSON: mapping / sequence / scalar.
Mapping keys are strings (the case exercised by this module). -/
inductive Value where
  | null : Value
  | bool (b : Bool) : Value
  | int (n : Int) : Value
  | str (s : String) : Value
  | list (xs : List Value) : Value
  | dict (kvs : List (String × Value)) : Value
deriving Repr, Inhabited

/-- Python truthiness (`if x:`): `None`, `False`, `0`, `""`, `[]`, `{}`
are falsy, everything else truthy. -/
def pyTruthy : Value → Bool
  | .null => false
  | .bool b => b
  | .int n => n != 0
  | .str s => s != ""
  | .list xs => !xs.isEmpty
  | .dict kvs => !kvs.isEmpty

/-- `x is None`. -/
def isNull : Value → Bool
  | .null => true
  | _ => false

/-- `isinstance(x, (list, dict))`. -/
def isContainer : Value → Bool
  | .list _ => true
  | .dict _ => true
  | _ => false

mutual
/-- Python `==` on values.  Booleans compare equal to the integers 0/1
(`True == 1` in Python); dictionaries compare by key/value content. -/
def pyEq : Value → Value → Bool
  | .null, .null => true
  | .bool a, .bool b => a == b
  | .bool a, .int n => (if a then (1 : Int) else 0) == n
  | .int n, .bool a => n == (if a then (1 : Int) else 0)
  | .int a, .int b => a == b
  | .str a, .str b => a == b
  | .list xs, .list ys => pyEqList xs ys
  | .dict a, .dict b => a.length == b.length && pyEqDict a b
  | _, _ => false

/-- Elementwise Python `==` on lists (lengths must agree). -/
def pyEqList : List Value → List Value → Bool
  | [], [] => true
  | x :: xs, y :: ys => pyEq x y && pyEqList xs ys
  | _, _ => false

/-- Each binding of the first dict is present (by key lookup) in the
second with a Python-equal value. -/
def pyEqDict : List (String × Value) → List (String × Value) → Bool
  | [], _ => true
  | (k, v) :: rest, b =>
      (match b.lookup k with
       | some w => pyEq v w
       | none => false) && pyEqDict rest b
end

/-- Keys of an association list are pairwise distinct. -/
def noDupKeys : List (String × Value) → Bool
  | [] => true
  | (k, _) :: rest => (rest.lookup k).isNone && noDupKeys rest

mutual
/-- Well-formedness of a value as a Python object: every nested dict has
pairwise distinct keys (Python dictionaries cannot repeat a key). -/
def WFv : Value → Bool
  | .dict kvs => noDupKeys kvs && WFkvs kvs
  | .list xs => WFlist xs
  | _ => true

/-- All members of a list are well-formed. -/
def WFlist : List Value → Bool
  | [] => true
  | x :: xs => WFv x && WFlist xs

/-- All values of an association list are well-formed. -/
def WFkvs : List (String × Value) → Bool
  | [] => true
  | (_, v) :: rest => WFv v && WFkvs rest
end

/-- One step of a parsed path: a bracketed list index or a map key
(the two capture groups of `Yedit.re_key`). -/
inductive Token where
  | idx (i : Int) : Token
  | key (s : String) : Token
deriving Repr, DecidableEq

/-- The four reserved separator characters, `Yedit.com_sep`. -/
def comSep : List Char := ['.', '#', '|', ':']

/-- Character class of `Yedit.re_key` after `format`: `[0-9a-zA-Z{}/_-]`
with the braces replaced by the three non-active separators, i.e. every
reserved separator other than the active one is legal key content. -/
def keyChar (sep : Char) (c : Char) : Bool :=
  c.isAlphanum || (comSep.contains c && c != sep) || c == '/' || c == '_' || c == '-'

/-- Character class of `Yedit.re_valid_key`.  The pattern contains `%s`
but is instantiated with `str.format`, which substitutes `{}` and leaves
`%s` untouched, so the class is literally `[0-9a-zA-Z%s/_-]` for every
choice of separator: no reserved separator is ever in this class. -/
def vkChar (c : Char) : Bool :=
  c.isAlphanum || c == '%' || c == 's' || c == '/' || c == '_' || c == '-'

/-- Digit run to a natural number (`int()` on the matched digits). -/
def digitsToNat (ds : List Char) : Nat :=
  ds.foldl (fun a c => a * 10 + (c.toNat - '0'.toNat)) 0

/-- Try to read `\[-?\d+\]` at the head; on success return the signed
index and the remaining characters.  The digit run is maximal, and a
closing bracket must follow it directly (the regex cannot backtrack into
a shorter digit run because `]` is not a digit). -/
def bracketParse : List Char → Option (Int × List Char)
  | '[' :: rest =>
      let neg : Bool := match rest with | '-' :: _ => true | _ => false
      let rest1 : List Char := match rest with | '-' :: r => r | _ => rest
      let ds := rest1.takeWhile Char.isDigit
      let r2 := rest1.dropWhile Char.isDigit
      if ds.isEmpty then none
      else
        match r2 with
        | ']' :: r3 =>
            some ((if neg then -(digitsToNat ds : Int) else (digitsToNat ds : Int)), r3)
        | _ => none
  | _ => none

/-- `re.findall(Yedit.re_key.format(...), key)`: scan left to right; at
each position try the bracket alternative, then a maximal run of key
characters; a position matching neither is skipped.  Fuel bounds the
recursion (each step consumes at least one character). -/
def scanTokensF (sep : Char) : Nat → List Char → List Token
  | 0, _ => []
  | _ + 1, [] => []
  | fuel + 1, c :: rest =>
      match bracketParse (c :: rest) with
      | some (i, r) => .idx i :: scanTokensF sep fuel r
      | none =>
          if keyChar sep c then
            .key (String.mk (c :: rest.takeWhile (keyChar sep)))
              :: scanTokensF sep fuel (rest.dropWhile (keyChar sep))
          else scanTokensF sep fuel rest

/-- `Yedit.parse_key`. -/
def parse_key (key : String) (sep : Char) : List Token :=
  scanTokensF sep (key.toList.length + 1) key.toList

/-- Remainders after consuming a nonempty prefix of `vkChar` characters
(the `+` in the key alternative can backtrack to any nonempty prefix of
the maximal run). -/
def classEnds : List Char → List (List Char)
  | [] => []
  | c :: rest => if vkChar c then rest :: classEnds rest else []

/-- Remainders after one token of `re_valid_key` at the head. -/
def tokenEnds (cs : List Char) : List (List Char) :=
  (match bracketParse cs with
   | some (_, r) => [r]
   | none => []) ++ classEnds cs

/-- Backtracking acceptance of `((token).?)+` anchored at both ends:
the input splits into one or more units, each a token optionally
followed by a single arbitrary non-newline character (`.` does not match
a newline).  Fuel bounds the recursion; each unit is nonempty. -/
def vkAcceptF : Nat → List Char → Bool
  | 0, _ => false
  | fuel + 1, cs =>
      (tokenEnds cs).any fun r =>
        r.isEmpty || vkAcceptF fuel r ||
          (match r with
           | [] => false
           | c :: r2 => c != '\n' && (r2.isEmpty || vkAcceptF fuel r2))

/-- Whole-string acceptance by the validation regex. -/
def vkAccept (cs : List Char) : Bool :=
  vkAcceptF (cs.length + 1) cs

/-- `Yedit.valid_key`.  Because `str.format` never substitutes the `%s`
placeholder in `re_valid_key`, the compiled pattern is the same for
every separator; Python's `$` also matches just before one trailing
newline. -/
def valid_key (key : String) (_sep : Char) : Bool :=
  let cs := key.toList
  vkAccept cs ||
    (match cs.getLast? with
     | some '\n' => vkAccept cs.dropLast
     | _ => false)

/-- Errors a `Yedit` call can raise. -/
inductive PErr where
  | keyError : PErr
  | indexError : PErr
  | typeError : PErr
  | yeditException : PErr
deriving Repr, DecidableEq

/-- Outcome of a mutating store operation: a returned changed-flag or a
raised exception. -/
inductive PyOut where
  | ret (changed : Bool) : PyOut
  | exc (e : PErr) : PyOut
deriving Repr, DecidableEq

/-- Python list indexing semantics: a nonnegative index must be below
the length; a negative index addresses from the end and must not exceed
the length in magnitude; otherwise `IndexError` (`none`). -/
def pyIdx (i : Int) (len : Nat) : Option Nat :=
  if 0 ≤ i then (if i < (len : Int) then some i.toNat else none)
  else (if -i ≤ (len : Int) then some (len - (-i).toNat) else none)

/-- `dict.get(k)`: the stored value, or `None` when absent. -/
def dGet (kvs : List (String × Value)) (k : String) : Value :=
  (kvs.lookup k).getD .null

/-- `d[k] = v`: replace the first binding of `k`, or append a new one. -/
def setKey : List (String × Value) → String → Value → List (String × Value)
  | [], k, v => [(k, v)]
  | (k', v') :: rest, k, v =>
      if k' == k then (k, v) :: rest else (k', v') :: setKey rest k v

/-- `del d[k]` / `d.pop(k)`: drop the first binding of `k`. -/
def delKey : List (String × Value) → String → List (String × Value)
  | [], _ => []
  | (k', v') :: rest, k => if k' == k then rest else (k', v') :: delKey rest k

/-- `d.update(other)`: merge `other` into `d`, later keys overriding. -/
def dictUpdate (kvs other : List (String × Value)) : List (String × Value) :=
  other.foldl (fun acc kv => setKey acc kv.1 kv.2) kvs

/-- `lst.index(v)`: index of the first element Python-equal to `v`. -/
def pyIndexOf (xs : List Value) (v : Value) : Option Nat :=
  match xs with
  | [] => none
  | x :: rest => if pyEq x v then some 0 else (pyIndexOf rest v).map (· + 1)

/-- The traversal loop of `Yedit.get_entry`: a key step on a mapping
descends via `dict.get` (missing key yields `None` and the walk goes
on); an index step on a sequence with `int(arr_ind) <= len(data) - 1`
descends by Python indexing (raising `IndexError` for a negative index
of excessive magnitude); any other combination returns `None` at once. -/
def walkGet : Value → List Token → Except PErr Value
  | d, [] => .ok d
  | d, t :: rest =>
      match t, d with
      | .key k, .dict kvs => walkGet (dGet kvs k) rest
      | .idx i, .list xs =>
          if i ≤ (xs.length : Int) - 1 then
            match pyIdx i xs.length with
            | some n => walkGet (xs.getD n .null) rest
            | none => .error .indexError
          else .ok .null
      | _, _ => .ok .null

/-- `Yedit.get_entry`. -/
def get_entry (data : Value) (key : String) (sep : Char) : Except PErr Value :=
  if key ≠ "" ∧ ¬ valid_key key sep ∧ isContainer data then .ok .null
  else walkGet data (parse_key key sep)

/-- `get_entry` wrapped in `try/except KeyError` as every store
operation does before using the entry. -/
def getCaught (data : Value) (key : String) (sep : Char) : Except PErr Value :=
  match get_entry data key sep with
  | .error .keyError => .ok .null
  | x => x

/-- `Yedit.get`: `get_entry` with `KeyError` mapped to `None`; any other
exception (such as `IndexError`) propagates.  (Namespaced: the bare name
`get` collides with the state-monad `get` in scope.) -/
def Yedit.get (data : Value) (key : String) (sep : Char) : Except PErr Value :=
  getCaught data key sep

/-- Final write step of `Yedit.add_entry`: an in-bounds index on a
sequence overwrites that slot, a key on a mapping sets that key, and
every other combination raises (`"Error adding to object at path"`).
The Python function returns the container it just mutated. -/
def addLast (d : Value) (t : Token) (item : Value) : (Except PErr Value) × Value :=
  match t, d with
  | .idx i, .list xs =>
      if i ≤ (xs.length : Int) - 1 then
        match pyIdx i xs.length with
        | some n =>
            let nd : Value := .list (xs.set n item)
            (.ok nd, nd)
        | none => (.error .indexError, .list xs)
      else (.error .yeditException, .list xs)
  | .idx _, v => (.error .yeditException, v)
  | .key k, .dict kvs =>
      let nd : Value := .dict (setKey kvs k item)
      (.ok nd, nd)
  | .key _, v => (.error .yeditException, v)

/-- The loop of `Yedit.add_entry` over the parsed path, in-place
mutation rendered by returning the rebuilt subtree alongside the Python
return value (or the raised error).  Descent through a key step keeps an
existing truthy child, replaces a missing or falsy child by a fresh
empty mapping, raises `YeditException` on a truthy non-mapping, and hits
Python's `TypeError` when item assignment is attempted on a falsy
non-mapping.  Descent through an index step requires a sequence and
`int(arr_ind) <= len(data) - 1`.  An empty token list models
`key_indexes[-1]` on an empty list: `IndexError`. -/
def addWalk : Value → List Token → Value → (Except PErr Value) × Value
  | d, [], _ => (.error .indexError, d)
  | d, [t], item => addLast d t item
  | d, t :: t2 :: rest, item =>
      match t, d with
      | .key k, .dict kvs =>
          (match kvs.lookup k with
           | some c =>
               if pyTruthy c then
                 let (r, c') := addWalk c (t2 :: rest) item
                 (r, .dict (setKey kvs k c'))
               else
                 let (r, c') := addWalk (.dict []) (t2 :: rest) item
                 (r, .dict (setKey kvs k c'))
           | none =>
               let (r, c') := addWalk (.dict []) (t2 :: rest) item
               (r, .dict (setKey kvs k c')))
      | .key _, v => if pyTruthy v then (.error .yeditException, v) else (.error .typeError, v)
      | .idx i, .list xs =>
          if i ≤ (xs.length : Int) - 1 then
            match pyIdx i xs.length with
            | some n =>
                let (r, c') := addWalk (xs.getD n .null) (t2 :: rest) item
                (r, .list (xs.set n c'))
            | none => (.error .indexError, .list xs)
          else (.error .yeditException, .list xs)
      | .idx _, v => (.error .yeditException, v)

/-- `Yedit.add_entry`: empty key binds the local variable only (the tree
is untouched and `item` is returned); an invalid key on a container
returns `None`; otherwise the parsed path is walked and written. -/
def add_entry (data : Value) (key : String) (item : Value) (sep : Char) :
    (Except PErr (Option Value)) × Value :=
  if key = "" then (.ok (some item), data)
  else if ¬ valid_key key sep ∧ isContainer data then (.ok none, data)
  else
    match addWalk data (parse_key key sep) item with
    | (.ok r, d) => (.ok (some r), d)
    | (.error e, d) => (.error e, d)

/-- `Yedit.put`: no-op when the entry already equals the value; the
write happens on a deep copy, so a raise or a rejected write leaves the
stored document untouched; an empty path installs the new value as root
only when it is a mapping or a sequence. -/
def put (doc : Value) (path : String) (value : Value) (sep : Char) : PyOut × Value :=
  match getCaught doc path sep with
  | .error e => (.exc e, doc)
  | .ok entry =>
      if pyEq entry value then (.ret false, doc)
      else
        match add_entry doc path value sep with
        | (.error e, _) => (.exc e, doc)
        | (.ok none, _) => (.ret false, doc)
        | (.ok (some result), tmp) =>
            if path = "" then
              if isContainer result then (.ret true, result)
              else (.ret false, doc)
            else (.ret true, tmp)

/-- Replace the node reached by `walkGet` along `toks` with `nv`,
rebuilding the spine: the functional rendering of mutating the aliased
`entry` returned by `get_entry`.  Positions the walk cannot reach are
left unchanged (no store operation mutates through a failed walk). -/
def modWalk : Value → List Token → Value → Value
  | _, [], nv => nv
  | .dict kvs, .key k :: rest, nv =>
      (match kvs.lookup k with
       | some c => .dict (setKey kvs k (modWalk c rest nv))
       | none => .dict kvs)
  | .list xs, .idx i :: rest, nv =>
      if i ≤ (xs.length : Int) - 1 then
        match pyIdx i xs.length with
        | some n => .list (xs.set n (modWalk (xs.getD n .null) rest nv))
        | none => .list xs
      else .list xs
  | v, _, _ => v

/-- Tail of `Yedit.update` on a sequence when no edit position was
resolved: look for `value` itself; present means no change, absent means
append. -/
def updListSearch (doc : Value) (path : String) (xs : List Value) (value : Value)
    (sep : Char) : PyOut × Value :=
  match pyIndexOf xs value with
  | none => (.ret true, modWalk doc (parse_key path sep) (.list (xs ++ [value])))
  | some _ => (.ret false, doc)

/-- `Yedit.update` on a sequence with a resolved edit position `i`:
`entry[ind]` is read with Python indexing (raising `IndexError` when out
of range); a differing element is overwritten in place, an equal one
falls through to the search-by-value tail. -/
def updListInd (doc : Value) (path : String) (xs : List Value) (i : Int) (value : Value)
    (sep : Char) : PyOut × Value :=
  match pyIdx i xs.length with
  | none => (.exc .indexError, doc)
  | some n =>
      if ¬ pyEq (xs.getD n .null) value then
        (.ret true, modWalk doc (parse_key path sep) (.list (xs.set n value)))
      else updListSearch doc path xs value sep

/-- `Yedit.update`.  A mapping target shallow-merges a mapping value
(raising `YeditException` otherwise) and always reports a change; a
sequence target resolves the position from a truthy `curr_value` (its
absence from the sequence means no change), else from an explicit
`index`; with no position the value itself is searched and appended when
missing.  Any other target reports no change. -/
def update (doc : Value) (path : String) (value : Value) (index : Option Int)
    (curr_value : Value) (sep : Char) : PyOut × Value :=
  match getCaught doc path sep with
  | .error e => (.exc e, doc)
  | .ok entry =>
      match entry with
      | .dict kvs =>
          (match value with
           | .dict vkvs =>
               (.ret true, modWalk doc (parse_key path sep) (.dict (dictUpdate kvs vkvs)))
           | _ => (.exc .yeditException, doc))
      | .list xs =>
          if pyTruthy curr_value then
            match pyIndexOf xs curr_value with
            | none => (.ret false, doc)
            | some n => updListInd doc path xs (Int.ofNat n) value sep
          else
            (match index with
             | some i => updListInd doc path xs i value sep
             | none => updListSearch doc path xs value sep)
      | _ => (.ret false, doc)

/-- Final step of `Yedit.remove_entry` on a non-empty path: delete the
in-bounds sequence index (`IndexError` on a negative index of excessive
magnitude) or the mapping key (`KeyError` when absent); any other
combination falls off the function, returning `None`. -/
def removeLast (d : Value) (t : Token) : (Except PErr (Option Bool)) × Value :=
  match t, d with
  | .idx i, .list xs =>
      if i ≤ (xs.length : Int) - 1 then
        match pyIdx i xs.length with
        | some n => (.ok (some true), .list (xs.eraseIdx n))
        | none => (.error .indexError, .list xs)
      else (.ok none, .list xs)
  | .idx _, v => (.ok none, v)
  | .key k, .dict kvs =>
      (match kvs.lookup k with
       | some _ => (.ok (some true), .dict (delKey kvs k))
       | none => (.error .keyError, .dict kvs))
  | .key _, v => (.ok none, v)

/-- The traversal of `Yedit.remove_entry` over a non-empty parsed path:
descent follows `get_entry` (a missing key continues with `None`, which
then fails the next step and yields `None` overall); the final token is
handled by `removeLast`. -/
def removeWalk : Value → List Token → (Except PErr (Option Bool)) × Value
  | d, [] => (.error .indexError, d)
  | d, [t] => removeLast d t
  | d, t :: t2 :: rest =>
      match t, d with
      | .key k, .dict kvs =>
          (match kvs.lookup k with
           | some c =>
               let (r, c') := removeWalk c (t2 :: rest)
               (r, .dict (setKey kvs k c'))
           | none => (.ok none, .dict kvs))
      | .key _, v => (.ok none, v)
      | .idx i, .list xs =>
          if i ≤ (xs.length : Int) - 1 then
            match pyIdx i xs.length with
            | some n =>
                let (r, c') := removeWalk (xs.getD n .null) (t2 :: rest)
                (r, .list (xs.set n c'))
            | none => (.error .indexError, .list xs)
          else (.ok none, .list xs)
      | .idx _, v => (.ok none, v)

/-- `Yedit.remove_entry`.  An empty key on a mapping pops the named
entry (`KeyError` when absent, `YeditException` when an index was given)
or clears the mapping; an empty key on a sequence removes by value
(`False` when absent), by index (`pop`, raising on an out-of-range
index) or clears the sequence; an invalid key on a container yields
`None`; otherwise the parsed path is walked and the final entry
deleted. -/
def remove_entry (data : Value) (key : String) (index : Option Int)
    (value : Option Value) (sep : Char) : (Except PErr (Option Bool)) × Value :=
  match data, key with
  | .dict kvs, "" =>
      (match value with
       | some v =>
           (match v with
            | .str s =>
                (match kvs.lookup s with
                 | some _ => (.ok (some true), .dict (delKey kvs s))
                 | none => (.error .keyError, .dict kvs))
            | _ => (.error .keyError, .dict kvs))
       | none =>
           match index with
           | some _ => (.error .yeditException, .dict kvs)
           | none => (.ok (some true), .dict []))
  | .list xs, "" =>
      (match value with
       | some v =>
           (match pyIndexOf xs v with
            | none => (.ok (some false), .list xs)
            | some n => (.ok (some true), .list (xs.eraseIdx n)))
       | none =>
           match index with
           | some i =>
               (match pyIdx i xs.length with
                | some n => (.ok (some true), .list (xs.eraseIdx n))
                | none => (.error .indexError, .list xs))
           | none => (.ok (some true), .list []))
  | d, k =>
      if ¬ (k ≠ "" ∧ valid_key k sep) ∧ isContainer d then (.ok none, d)
      else removeWalk d (parse_key k sep)

/-- `Yedit.delete`: nothing at the path means no change; otherwise
`remove_entry` runs against the stored document and a falsy result
(`None` or `False`) reports no change. -/
def delete (doc : Value) (path : String) (index : Option Int) (value : Option Value)
    (sep : Char) : PyOut × Value :=
  match getCaught doc path sep with
  | .error e => (.exc e, doc)
  | .ok entry =>
      if isNull entry then (.ret false, doc)
      else
        match remove_entry doc path index value sep with
        | (.error e, d) => (.exc e, d)
        | (.ok res, d) =>
            match res with
            | some true => (.ret true, d)
            | _ => (.ret false, d)

/-- The mapping/mapping loop of `Yedit.exists`: iterate the probe's
items in order; `entry[key]` raises `KeyError` on a missing key; an
unequal value breaks with `False`; a completed loop yields `True`
(`for`/`else`). -/
def existsDictLoop : List (String × Value) → List (String × Value) → Except PErr Bool
  | [], _ => .ok true
  | (k, v) :: rest, kvs =>
      match kvs.lookup k with
      | none => .error .keyError
      | some w => if pyEq w v then existsDictLoop rest kvs else .ok false

/-- `Yedit.exists`: membership for a sequence entry; for a mapping entry
a mapping value runs the partial-match loop and any other value is
tested for key membership; otherwise plain equality. -/
def existsOp (doc : Value) (path : String) (value : Value) (sep : Char) :
    Except PErr Bool :=
  match getCaught doc path sep with
  | .error e => .error e
  | .ok entry =>
      match entry with
      | .list xs => .ok (xs.any fun x => pyEq value x)
      | .dict kvs =>
          (match value with
           | .dict vkvs => existsDictLoop vkvs kvs
           | .str s => .ok (kvs.lookup s).isSome
           | _ => .ok false)
      | _ => .ok (pyEq entry value)

/-- Append `value` to the sequence entry at `path` in place. -/
def appendCore (entry : Value) (doc : Value) (path : String) (value : Value)
    (sep : Char) : PyOut × Value :=
  match entry with
  | .list xs => (.ret true, modWalk doc (parse_key path sep) (.list (xs ++ [value])))
  | _ => (.ret false, doc)

/-- `Yedit.append`: when nothing exists at the path, first `put` an
empty sequence there and re-read; a non-sequence entry reports no
change. -/
def append (doc : Value) (path : String) (value : Value) (sep : Char) : PyOut × Value :=
  match getCaught doc path sep with
  | .error e => (.exc e, doc)
  | .ok entry =>
      if isNull entry then
        match put doc path (.list []) sep with
        | (.exc e, d) => (.exc e, d)
        | (.ret _, d) =>
            match getCaught d path sep with
            | .error e => (.exc e, d)
            | .ok entry1 => appendCore entry1 d path value sep
      else appendCore entry doc path value sep

/-- Truthy boolean tokens accepted by `Yedit.parse_value`. -/
def trueBools : List String :=
  ["y", "Y", "yes", "Yes", "YES", "true", "True", "TRUE", "on", "On", "ON"]

/-- Falsy boolean tokens accepted by `Yedit.parse_value`. -/
def falseBools : List String :=
  ["n", "N", "no", "No", "NO", "false", "False", "FALSE", "off", "Off", "OFF"]

/-- Model of the external `yaml.safe_load` applied to a scalar string:
YAML 1.1 booleans, integers and nulls become typed scalars, anything
else stays a string.  (The YAML library is third-party code, not part of
this repository; only its scalar behaviour is needed here.) -/
def yamlScalar (s : String) : Value :=
  if ["yes", "Yes", "YES", "true", "True", "TRUE", "on", "On", "ON"].contains s then
    .bool true
  else if ["no", "No", "NO", "false", "False", "FALSE", "off", "Off", "OFF"].contains s then
    .bool false
  else if ["null", "Null", "NULL", "~", ""].contains s then .null
  else
    match s.toInt? with
    | some n => .int n
    | none => .str s

/-- `str()` applied to a Python boolean. -/
def pyStrOfBool (b : Bool) : String := if b then "True" else "False"

/-- Substring test (`'bool' in vtype`). -/
def strContains (needle hay : String) : Bool :=
  decide (List.IsInfix needle.toList hay.toList)

/-- `Yedit.parse_value`: a string with a declared boolean type must be a
recognized boolean token (`YeditException` otherwise); a boolean with a
declared string type is stringified; the empty string stays literal; any
other string without a declared string type is YAML-loaded. -/
def parse_value (inc : Value) (vtype : String) : Except PErr Value :=
  match inc with
  | .str s =>
      if strContains "bool" vtype ∧ ¬ (trueBools.contains s ∨ falseBools.contains s) then
        .error .yeditException
      else if s = "" then .ok (.str s)
      else if ¬ strContains "str" vtype then .ok (yamlScalar s)
      else .ok (.str s)
  | .bool b =>
      if strContains "str" vtype then .ok (.str (pyStrOfBool b))
      else .ok (.bool b)
  | v => .ok v

/-- `Yedit.get_curr_value`: `None` passes through; a declared format
parses a string through the corresponding loader. -/
def get_curr_value (invalue : Value) (val_type : Option String) : Value :=
  match invalue with
  | .null => .null
  | v =>
      if val_type = some "yaml" ∨ val_type = some "json" then
        match v with
        | .str s => yamlScalar s
        | w => w
      else v

/-- One edit operation handed to `Yedit.process_edits` (`curr_value` is
`null` when absent, matching Python's `edit.get('curr_value')`). -/
structure Edit where
  key : String
  value : Value
  action : Option String
  value_type : String
  index : Option Int
  curr_value : Value
  curr_value_format : Option String

/-- Dispatch one edit against the store, as `Yedit.process_edits` does:
coerce the value, then `update`, `append` or (by default) `put`. -/
def applyEdit (e : Edit) (doc : Value) (sep : Char) : (Except PErr Bool) × Value :=
  match parse_value e.value e.value_type with
  | .error er => (.error er, doc)
  | .ok v =>
      let step : PyOut × Value :=
        if e.action = some "update" then
          match parse_value e.curr_value "" with
          | .error er => (.exc er, doc)
          | .ok pcv => update doc e.key v e.index (get_curr_value pcv e.curr_value_format) sep
        else if e.action = some "append" then append doc e.key v sep
        else put doc e.key v sep
      match step with
      | (.exc er, d) => (.error er, d)
      | (.ret b, d) => (.ok b, d)

/-- The loop of `Yedit.process_edits`: edits run strictly in input
order against the evolving document; each edit that reports a change
appends a `(key, document-after)` record; an exception aborts the
batch. -/
def editsWalk : List Edit → Value → Char → (Except PErr (List (String × Value))) × Value
  | [], doc, _ => (.ok [], doc)
  | e :: rest, doc, sep =>
      match applyEdit e doc sep with
      | (.error er, d) => (.error er, d)
      | (.ok changed, d) =>
          match editsWalk rest d sep with
          | (.ok rs, d') =>
              (.ok ((if changed then [(e.key, d)] else []) ++ rs), d')
          | (.error er, d') => (.error er, d')

/-- `Yedit.process_edits`: the aggregate `changed` flag is whether any
record was collected. -/
def process_edits (edits : List Edit) (doc : Value) (sep : Char) :
    (Except PErr (Bool × List (String × Value))) × Value :=
  match editsWalk edits doc sep with
  | (.ok rs, d) => (.ok (decide (rs.length > 0), rs), d)
  | (.error er, d) => (.error er, d)

/-! ### Auxiliary lemmas -/

theorem lookup_setKey_self (kvs : List (String × Value)) (k : String) (v : Value) :
    (setKey kvs k v).lookup k = some v := by
  induction kvs with
  | nil => simp [setKey, List.lookup]
  | cons kv rest ih =>
      obtain ⟨k', v'⟩ := kv
      by_cases h : k' = k
      · subst h
        simp [setKey, List.lookup]
      · have hb : (k' == k) = false := by simpa using h
        have hb' : (k == k') = false := by
          simp only [beq_eq_false_iff_ne]
          exact fun hk => h hk.symm
        simp [setKey, hb, List.lookup, hb', ih]

theorem dGet_setKey_self (kvs : List (String × Value)) (k : String) (v : Value) :
    dGet (setKey kvs k v) k = v := by
  simp [dGet, lookup_setKey_self]

theorem pyIdx_lt {i : Int} {len n : Nat} (h : pyIdx i len = some n) : n < len := by
  unfold pyIdx at h
  by_cases h0 : 0 ≤ i
  · simp only [h0, if_true] at h
    by_cases h1 : i < (len : Int)
    · simp only [h1, if_true, Option.some.injEq] at h
      subst h
      exact (Int.toNat_lt h0).mpr h1
    · simp [h1] at h
  · simp only [h0, if_false] at h
    by_cases h1 : -i ≤ (len : Int)
    · simp only [h1, if_true, Option.some.injEq] at h
      subst h
      have hneg : i < 0 := lt_of_not_ge h0
      have hm : 0 < (-i).toNat := by
        have : (0 : Int) < -i := by omega
        omega
      have hlen : 0 < len := by
        have : (1 : Int) ≤ -i := by omega
        have := le_trans this h1
        omega
      exact Nat.sub_lt hlen hm
    · simp [h1] at h

theorem getD_set_self (xs : List Value) (n : Nat) (c : Value) (h : n < xs.length) :
    (xs.set n c).getD n .null = c := by
  simp [List.getD_eq_getElem?_getD, List.getElem?_set_self h]

theorem lookup_self_of_noDup : ∀ (kvs : List (String × Value)),
    noDupKeys kvs = true → ∀ kv ∈ kvs, kvs.lookup kv.1 = some kv.2
  | [], _, _, hkv => by cases hkv
  | (k0, v0) :: rest, h, kv, hkv => by
      simp only [noDupKeys, Bool.and_eq_true, Option.isNone_iff_eq_none] at h
      rcases List.mem_cons.mp hkv with hkv | hkv
      · subst hkv
        simp [List.lookup]
      · have hrest := lookup_self_of_noDup rest h.2 kv hkv
        have hne : (kv.1 == k0) = false := by
          rcases hbe : kv.1 == k0 with _ | _
          · rfl
          · exfalso
            have : kv.1 = k0 := by simpa using hbe
            rw [this] at hrest
            rw [h.1] at hrest
            cases hrest
        simp [List.lookup, hne, hrest]

mutual
/-- `pyEq` is reflexive on well-formed values. -/
theorem pyEq_refl : (v : Value) → WFv v = true → pyEq v v = true
  | .null, _ => rfl
  | .bool b, _ => by simp [pyEq]
  | .int n, _ => by simp [pyEq]
  | .str s, _ => by simp [pyEq]
  | .list xs, h => by
      rw [pyEq]
      exact pyEqList_refl xs (by simpa [WFv] using h)
  | .dict kvs, h => by
      rw [pyEq]
      have h' : noDupKeys kvs = true ∧ WFkvs kvs = true := by simpa [WFv] using h
      have hsub := lookup_self_of_noDup kvs h'.1
      simp only [beq_self_eq_true, Bool.true_and]
      exact pyEqDict_of kvs kvs (fun kv hkv => hsub kv hkv) h'.2

/-- Elementwise reflexivity. -/
theorem pyEqList_refl : (xs : List Value) → WFlist xs = true → pyEqList xs xs = true
  | [], _ => rfl
  | x :: xs, h => by
      rw [pyEqList]
      have h' : WFv x = true ∧ WFlist xs = true := by simpa [WFlist] using h
      rw [pyEq_refl x h'.1, pyEqList_refl xs h'.2]
      rfl

/-- A dict whose bindings all look themselves up in `b` is `pyEqDict` to `b`. -/
theorem pyEqDict_of : (a b : List (String × Value)) →
    (∀ kv ∈ a, b.lookup kv.1 = some kv.2) → WFkvs a = true → pyEqDict a b = true
  | [], _, _, _ => rfl
  | (k, v) :: rest, b, hsub, h => by
      rw [pyEqDict]
      have h' : WFv v = true ∧ WFkvs rest = true := by simpa [WFkvs] using h
      have hk : List.lookup k b = some v := hsub (k, v) (by simp)
      rw [hk]
      show (pyEq v v && pyEqDict rest b) = true
      rw [pyEq_refl v h'.1]
      rw [pyEqDict_of rest b (fun kv hkv => hsub kv (List.mem_cons_of_mem _ hkv)) h'.2]
      rfl
end


theorem addWalk_ne_ok_of_scalar : ∀ (d : Value), isContainer d = false →
    ∀ (t : Token) (ts : List Token) (item r nd : Value),
      addWalk d (t :: ts) item ≠ (.ok r, nd) := by
  intro d hc t ts item r nd h
  cases ts with
  | nil =>
      cases t with
      | idx i =>
          cases d with
          | list xs => simp [isContainer] at hc
          | dict kvs => simp [isContainer] at hc
          | null => simp [addWalk, addLast] at h
          | bool b => simp [addWalk, addLast] at h
          | int n => simp [addWalk, addLast] at h
          | str s => simp [addWalk, addLast] at h
      | key k =>
          cases d with
          | list xs => simp [isContainer] at hc
          | dict kvs => simp [isContainer] at hc
          | null => simp [addWalk, addLast] at h
          | bool b => simp [addWalk, addLast] at h
          | int n => simp [addWalk, addLast] at h
          | str s => simp [addWalk, addLast] at h
  | cons t2 ts2 =>
      cases t with
      | idx i =>
          cases d with
          | list xs => simp [isContainer] at hc
          | dict kvs => simp [addWalk] at h
          | null => simp [addWalk] at h
          | bool b => simp [addWalk] at h
          | int n => simp [addWalk] at h
          | str s => simp [addWalk] at h
      | key k =>
          cases d with
          | list xs => simp [isContainer] at hc
          | dict kvs => simp [isContainer] at hc
          | null =>
              simp only [addWalk] at h
              split at h <;> simp at h
          | bool b =>
              simp only [addWalk] at h
              split at h <;> simp at h
          | int n =>
              simp only [addWalk] at h
              split at h <;> simp at h
          | str s =>
              simp only [addWalk] at h
              split at h <;> simp at h

theorem walkGet_addLast (d : Value) (t : Token) (item r nd : Value)
    (h : addLast d t item = (.ok r, nd)) : walkGet nd [t] = .ok item := by
  cases t with
  | idx i =>
      cases d with
      | list xs =>
          simp only [addLast] at h
          split at h
          · cases hp : pyIdx i xs.length with
            | none => rw [hp] at h; cases h
            | some n =>
                rw [hp] at h
                simp only [Prod.mk.injEq, Except.ok.injEq] at h
                have hnd : nd = Value.list (xs.set n item) := h.2.symm
                subst hnd
                have hn : n < xs.length := pyIdx_lt hp
                rw [walkGet]
                rw [List.length_set]
                rw [if_pos (by assumption)]
                rw [hp]
                show walkGet ((xs.set n item).getD n Value.null) [] = Except.ok item
                rw [getD_set_self xs n item hn]
                rfl
          · cases h
      | null => simp [addLast] at h
      | bool b => simp [addLast] at h
      | int n => simp [addLast] at h
      | str s => simp [addLast] at h
      | dict kvs => simp [addLast] at h
  | key k =>
      cases d with
      | dict kvs =>
          simp only [addLast, Prod.mk.injEq, Except.ok.injEq] at h
          have hnd : nd = Value.dict (setKey kvs k item) := h.2.symm
          subst hnd
          rw [walkGet]
          rw [dGet_setKey_self]
          rfl
      | null => simp [addLast] at h
      | bool b => simp [addLast] at h
      | int n => simp [addLast] at h
      | str s => simp [addLast] at h
      | list xs => simp [addLast] at h

theorem walkGet_addWalk : ∀ (d : Value) (toks : List Token) (item r nd : Value),
    addWalk d toks item = (.ok r, nd) → toks ≠ [] → walkGet nd toks = .ok item
  | _, [], _, _, _, _, hne => absurd rfl hne
  | d, [t], item, r, nd, h, _ => walkGet_addLast d t item r nd h
  | d, t :: t2 :: rest, item, r, nd, h, _ => by
      cases t with
      | key k =>
          cases d with
          | dict kvs =>
              cases hl : kvs.lookup k with
              | some c =>
                  cases htb : pyTruthy c with
                  | true =>
                      rcases hw : addWalk c (t2 :: rest) item with ⟨r1, c'⟩
                      simp only [addWalk, hl, htb, if_true, hw, Prod.mk.injEq] at h
                      obtain ⟨h1, h2⟩ := h
                      subst h2
                      have ih := walkGet_addWalk c (t2 :: rest) item r c'
                        (by rw [hw, h1]) (by simp)
                      rw [walkGet, dGet_setKey_self]
                      exact ih
                  | false =>
                      rcases hw : addWalk (.dict []) (t2 :: rest) item with ⟨r1, c'⟩
                      simp only [addWalk, hl, htb, hw, Prod.mk.injEq,
                        Bool.false_eq_true, if_false] at h
                      obtain ⟨h1, h2⟩ := h
                      subst h2
                      have ih := walkGet_addWalk (.dict []) (t2 :: rest) item r c'
                        (by rw [hw, h1]) (by simp)
                      rw [walkGet, dGet_setKey_self]
                      exact ih
              | none =>
                  rcases hw : addWalk (.dict []) (t2 :: rest) item with ⟨r1, c'⟩
                  simp only [addWalk, hl, hw, Prod.mk.injEq] at h
                  obtain ⟨h1, h2⟩ := h
                  subst h2
                  have ih := walkGet_addWalk (.dict []) (t2 :: rest) item r c'
                    (by rw [hw, h1]) (by simp)
                  rw [walkGet, dGet_setKey_self]
                  exact ih
          | null => exact absurd h (addWalk_ne_ok_of_scalar Value.null rfl _ _ _ _ _)
          | bool b => exact absurd h (addWalk_ne_ok_of_scalar (Value.bool b) rfl _ _ _ _ _)
          | int n => exact absurd h (addWalk_ne_ok_of_scalar (Value.int n) rfl _ _ _ _ _)
          | str s => exact absurd h (addWalk_ne_ok_of_scalar (Value.str s) rfl _ _ _ _ _)
          | list xs =>
              simp only [addWalk] at h
              cases htb : pyTruthy (Value.list xs) with
              | true => rw [htb] at h; simp at h
              | false => rw [htb] at h; simp at h
      | idx i =>
          cases d with
          | list xs =>
              simp only [addWalk] at h
              split at h
              · cases hp : pyIdx i xs.length with
                | none => rw [hp] at h; simp at h
                | some n =>
                    rcases hw : addWalk (xs.getD n .null) (t2 :: rest) item with ⟨r1, c'⟩
                    rw [hp] at h
                    simp only [hw, Prod.mk.injEq] at h
                    obtain ⟨h1, h2⟩ := h
                    subst h2
                    have hn : n < xs.length := pyIdx_lt hp
                    have ih := walkGet_addWalk (xs.getD n .null) (t2 :: rest) item r c'
                      (by rw [hw, h1]) (by simp)
                    rw [walkGet]
                    rw [List.length_set]
                    rw [if_pos (by assumption)]
                    rw [hp]
                    show walkGet ((xs.set n c').getD n Value.null) (t2 :: rest) = Except.ok item
                    rw [getD_set_self xs n c' hn]
                    exact ih
              · simp at h
          | null => exact absurd h (addWalk_ne_ok_of_scalar Value.null rfl _ _ _ _ _)
          | bool b => exact absurd h (addWalk_ne_ok_of_scalar (Value.bool b) rfl _ _ _ _ _)
          | int n => exact absurd h (addWalk_ne_ok_of_scalar (Value.int n) rfl _ _ _ _ _)
          | str s => exact absurd h (addWalk_ne_ok_of_scalar (Value.str s) rfl _ _ _ _ _)
          | dict kvs => simp [addWalk] at h

theorem parse_key_empty (sep : Char) : parse_key "" sep = [] := rfl

theorem get_entry_empty (d : Value) (sep : Char) : get_entry d "" sep = .ok d := by
  rw [get_entry, if_neg]
  · rw [parse_key_empty]
    rfl
  · intro hc
    exact hc.1 rfl

theorem getCaught_of_ok {d : Value} {path : String} {sep : Char} {e : Value}
    (h : get_entry d path sep = .ok e) : getCaught d path sep = .ok e := by
  rw [getCaught, h]

theorem get_entry_after_add (doc : Value) (path : String) (item r nd : Value) (sep : Char)
    (hne : path ≠ "") (h : add_entry doc path item sep = (.ok (some r), nd)) :
    get_entry nd path sep = .ok item := by
  rw [add_entry, if_neg hne] at h
  by_cases hv : valid_key path sep = true
  · rw [if_neg (by intro hc; exact hc.1 hv)] at h
    rcases hw : addWalk doc (parse_key path sep) item with ⟨r1, d1⟩
    rw [hw] at h
    cases r1 with
    | error e => simp at h
    | ok r' =>
        simp only [Prod.mk.injEq, Except.ok.injEq, Option.some.injEq] at h
        have hnd : nd = d1 := h.2.symm
        subst hnd
        cases htoks : parse_key path sep with
        | nil =>
            rw [htoks] at hw
            rw [addWalk] at hw
            simp at hw
        | cons t ts =>
            rw [htoks] at hw
            have hwalk := walkGet_addWalk doc (t :: ts) item r' nd hw (by simp)
            rw [get_entry, if_neg (by intro hc; exact hc.2.1 hv), htoks]
            exact hwalk
  · by_cases hcont : isContainer doc = true
    · rw [if_pos ⟨hv, hcont⟩] at h
      simp at h
    · rw [if_neg (by intro hc; exact hcont hc.2)] at h
      rcases hw : addWalk doc (parse_key path sep) item with ⟨r1, d1⟩
      rw [hw] at h
      cases r1 with
      | error e => simp at h
      | ok r' =>
          cases htoks : parse_key path sep with
          | nil =>
              rw [htoks] at hw
              rw [addWalk] at hw
              simp at hw
          | cons t ts =>
              rw [htoks] at hw
              exact absurd hw
                (addWalk_ne_ok_of_scalar doc (by simpa using hcont) t ts item r' d1)

/-- C1: `put(path, v)` immediately followed by `put(path, v)` yields
changed=false on the second call, with the document unchanged from the
first call; moreover `put` is a no-op whenever the current value at the
path already deep-equals `v` (the value being a well-formed Python
object, i.e. no dictionary repeats a key). -/
theorem c1_put_idempotent (doc : Value) (path : String) (v : Value) (sep : Char)
    (hwf : WFv v = true) :
    (∀ c d, put doc path v sep = (.ret c, d) → put d path v sep = (.ret false, d)) ∧
    (∀ e, get_entry doc path sep = .ok e → pyEq e v = true →
      put doc path v sep = (.ret false, doc)) := by
  have hnoop : ∀ (d0 e : Value), getCaught d0 path sep = .ok e → pyEq e v = true →
      put d0 path v sep = (.ret false, d0) := by
    intro d0 e hgc hpe
    simp [put, hgc, hpe]
  constructor
  · intro c d h
    cases hg : getCaught doc path sep with
    | error e =>
        rw [put, hg] at h
        simp at h
    | ok entry =>
        by_cases heq : pyEq entry v = true
        · have hfst : put doc path v sep = (.ret false, doc) := by
            simp [put, hg, heq]
          rw [hfst] at h
          simp only [Prod.mk.injEq, PyOut.ret.injEq] at h
          obtain ⟨_, hd⟩ := h
          subst hd
          exact hfst
        · by_cases hp0 : path = ""
          · subst hp0
            have ha0 : add_entry doc "" v sep = (Except.ok (some v), doc) := rfl
            by_cases hcv : isContainer v = true
            · have hfst : put doc "" v sep = (.ret true, v) := by
                simp [put, hg, heq, ha0, hcv]
              rw [hfst] at h
              simp only [Prod.mk.injEq, PyOut.ret.injEq] at h
              obtain ⟨_, hd⟩ := h
              subst hd
              exact hnoop v v (getCaught_of_ok (get_entry_empty v sep)) (pyEq_refl v hwf)
            · have hfst : put doc "" v sep = (.ret false, doc) := by
                simp [put, hg, heq, ha0, hcv]
              rw [hfst] at h
              simp only [Prod.mk.injEq, PyOut.ret.injEq] at h
              obtain ⟨_, hd⟩ := h
              subst hd
              exact hfst
          · rcases ha : add_entry doc path v sep with ⟨ra, da⟩
            cases ra with
            | error e2 =>
                have hfst : put doc path v sep = (.exc e2, doc) := by
                  simp [put, hg, heq, ha]
                rw [hfst] at h
                simp at h
            | ok o =>
                cases o with
                | none =>
                    have hfst : put doc path v sep = (.ret false, doc) := by
                      simp [put, hg, heq, ha]
                    rw [hfst] at h
                    simp only [Prod.mk.injEq, PyOut.ret.injEq] at h
                    obtain ⟨_, hd⟩ := h
                    subst hd
                    exact hfst
                | some res =>
                    have hfst : put doc path v sep = (.ret true, da) := by
                      simp [put, hg, heq, ha, hp0]
                    rw [hfst] at h
                    simp only [Prod.mk.injEq, PyOut.ret.injEq] at h
                    obtain ⟨_, hd⟩ := h
                    subst hd
                    have hge := get_entry_after_add doc path v res da sep hp0 ha
                    exact hnoop da v (getCaught_of_ok hge) (pyEq_refl v hwf)
  · intro e hge hpe
    exact hnoop doc e (getCaught_of_ok hge) hpe

/-- Witness for C1 at a concrete input: putting 5 at `a` in an empty
document and putting it again is a no-op the second time. -/
theorem c1_put_idempotent_witness :
    put (.dict [("a", .int 5)]) "a" (.int 5) '.' = (.ret false, .dict [("a", .int 5)]) :=
  (c1_put_idempotent (.dict []) "a" (.int 5) '.' rfl).1 true (.dict [("a", .int 5)]) rfl

theorem setKey_lookup_id : ∀ (kvs : List (String × Value)) (k : String) (c : Value),
    kvs.lookup k = some c → setKey kvs k c = kvs
  | [], _, _, h => by simp [List.lookup] at h
  | (k', v') :: rest, k, c, h => by
      rw [List.lookup_cons] at h
      cases hbe : k == k' with
      | true =>
          rw [hbe] at h
          simp only [Option.some.injEq] at h
          have hk : k = k' := by simpa using hbe
          subst hk
          subst h
          simp [setKey]
      | false =>
          rw [hbe] at h
          have hbe' : (k' == k) = false := by
            simp only [beq_eq_false_iff_ne] at hbe ⊢
            exact fun he => hbe he.symm
          rw [setKey, if_neg (by simp [hbe'])]
          rw [setKey_lookup_id rest k c h]

theorem set_getD_id : ∀ (xs : List Value) (n : Nat), n < xs.length →
    xs.set n (xs.getD n .null) = xs
  | [], n, h => by simp at h
  | x :: xs, 0, _ => by simp [List.set, List.getD]
  | x :: xs, n + 1, h => by
      simp only [List.set, List.getD_cons_succ]
      rw [set_getD_id xs n (by simpa using h)]

theorem removeLast_preserve (d : Value) (t : Token) (r : Except PErr (Option Bool))
    (d' : Value) (h : removeLast d t = (r, d')) (hne : r ≠ .ok (some true)) : d' = d := by
  cases t with
  | idx i =>
      cases d with
      | list xs =>
          simp only [removeLast] at h
          split at h
          · cases hp : pyIdx i xs.length with
            | none =>
                rw [hp] at h
                simp only [Prod.mk.injEq] at h
                exact h.2.symm
            | some n =>
                rw [hp] at h
                simp only [Prod.mk.injEq] at h
                exact absurd h.1.symm hne
          · simp only [Prod.mk.injEq] at h
            exact h.2.symm
      | null => simp only [removeLast, Prod.mk.injEq] at h; exact h.2.symm
      | bool b => simp only [removeLast, Prod.mk.injEq] at h; exact h.2.symm
      | int n => simp only [removeLast, Prod.mk.injEq] at h; exact h.2.symm
      | str s => simp only [removeLast, Prod.mk.injEq] at h; exact h.2.symm
      | dict kvs => simp only [removeLast, Prod.mk.injEq] at h; exact h.2.symm
  | key k =>
      cases d with
      | dict kvs =>
          simp only [removeLast] at h
          cases hl : kvs.lookup k with
          | none =>
              rw [hl] at h
              simp only [Prod.mk.injEq] at h
              exact h.2.symm
          | some c =>
              rw [hl] at h
              simp only [Prod.mk.injEq] at h
              exact absurd h.1.symm hne
      | null => simp only [removeLast, Prod.mk.injEq] at h; exact h.2.symm
      | bool b => simp only [removeLast, Prod.mk.injEq] at h; exact h.2.symm
      | int n => simp only [removeLast, Prod.mk.injEq] at h; exact h.2.symm
      | str s => simp only [removeLast, Prod.mk.injEq] at h; exact h.2.symm
      | list xs => simp only [removeLast, Prod.mk.injEq] at h; exact h.2.symm

theorem removeWalk_preserve : ∀ (d : Value) (toks : List Token)
    (r : Except PErr (Option Bool)) (d' : Value),
    removeWalk d toks = (r, d') → r ≠ .ok (some true) → d' = d
  | d, [], r, d', h, hne => by
      simp only [removeWalk, Prod.mk.injEq] at h
      exact h.2.symm
  | d, [t], r, d', h, hne => removeLast_preserve d t r d' h hne
  | d, t :: t2 :: rest, r, d', h, hne => by
      cases t with
      | key k =>
          cases d with
          | dict kvs =>
              cases hl : kvs.lookup k with
              | some c =>
                  rcases hw : removeWalk c (t2 :: rest) with ⟨r1, c'⟩
                  simp only [removeWalk, hl, hw, Prod.mk.injEq] at h
                  obtain ⟨h1, h2⟩ := h
                  have hc : c' = c :=
                    removeWalk_preserve c (t2 :: rest) r1 c' hw (by rw [h1]; exact hne)
                  rw [hc] at h2
                  rw [← h2, setKey_lookup_id kvs k c hl]
              | none =>
                  simp only [removeWalk, hl, Prod.mk.injEq] at h
                  exact h.2.symm
          | null => simp only [removeWalk, Prod.mk.injEq] at h; exact h.2.symm
          | bool b => simp only [removeWalk, Prod.mk.injEq] at h; exact h.2.symm
          | int n => simp only [removeWalk, Prod.mk.injEq] at h; exact h.2.symm
          | str s => simp only [removeWalk, Prod.mk.injEq] at h; exact h.2.symm
          | list xs => simp only [removeWalk, Prod.mk.injEq] at h; exact h.2.symm
      | idx i =>
          cases d with
          | list xs =>
              simp only [removeWalk] at h
              split at h
              · cases hp : pyIdx i xs.length with
                | none =>
                    rw [hp] at h
                    simp only [Prod.mk.injEq] at h
                    exact h.2.symm
                | some n =>
                    rcases hw : removeWalk (xs.getD n .null) (t2 :: rest) with ⟨r1, c'⟩
                    rw [hp] at h
                    simp only [hw, Prod.mk.injEq] at h
                    obtain ⟨h1, h2⟩ := h
                    have hc : c' = xs.getD n .null :=
                      removeWalk_preserve (xs.getD n .null) (t2 :: rest) r1 c' hw
                        (by rw [h1]; exact hne)
                    rw [hc] at h2
                    rw [← h2, set_getD_id xs n (pyIdx_lt hp)]
              · simp only [Prod.mk.injEq] at h
                exact h.2.symm
          | null => simp only [removeWalk, Prod.mk.injEq] at h; exact h.2.symm
          | bool b => simp only [removeWalk, Prod.mk.injEq] at h; exact h.2.symm
          | int n => simp only [removeWalk, Prod.mk.injEq] at h; exact h.2.symm
          | str s => simp only [removeWalk, Prod.mk.injEq] at h; exact h.2.symm
          | dict kvs => simp only [removeWalk, Prod.mk.injEq] at h; exact h.2.symm

theorem remove_entry_preserve (doc : Value) (path : String) (index : Option Int)
    (dval : Option Value) (sep : Char) (r : Except PErr (Option Bool)) (d' : Value)
    (h : remove_entry doc path index dval sep = (r, d')) (hne : r ≠ .ok (some true)) :
    d' = doc := by
  rw [remove_entry.eq_def] at h
  split at h
  · -- mapping root, empty path
    cases dval with
    | some v =>
        cases v with
        | str s =>
            rename_i kvs
            cases hl : kvs.lookup s with
            | some c =>
                simp only [hl, Prod.mk.injEq] at h
                exact absurd h.1.symm hne
            | none =>
                simp only [hl, Prod.mk.injEq] at h
                exact h.2.symm
        | null => simp only [Prod.mk.injEq] at h; exact h.2.symm
        | bool b => simp only [Prod.mk.injEq] at h; exact h.2.symm
        | int n => simp only [Prod.mk.injEq] at h; exact h.2.symm
        | list xs => simp only [Prod.mk.injEq] at h; exact h.2.symm
        | dict kvs2 => simp only [Prod.mk.injEq] at h; exact h.2.symm
    | none =>
        cases index with
        | some i => simp only [Prod.mk.injEq] at h; exact h.2.symm
        | none =>
            simp only [Prod.mk.injEq] at h
            exact absurd h.1.symm hne
  · -- sequence root, empty path
    rename_i xs
    cases dval with
    | some v =>
        cases hf : pyIndexOf xs v with
        | none =>
            simp only [hf, Prod.mk.injEq] at h
            exact h.2.symm
        | some n =>
            simp only [hf, Prod.mk.injEq] at h
            exact absurd h.1.symm hne
    | none =>
        cases index with
        | some i =>
            cases hp : pyIdx i xs.length with
            | none =>
                simp only [hp, Prod.mk.injEq] at h
                exact h.2.symm
            | some n =>
                simp only [hp, Prod.mk.injEq] at h
                exact absurd h.1.symm hne
        | none =>
            simp only [Prod.mk.injEq] at h
            exact absurd h.1.symm hne
  · -- non-empty path or scalar root
    split at h
    · simp only [Prod.mk.injEq] at h
      exact h.2.symm
    · exact removeWalk_preserve _ _ r d' h hne

theorem put_preserve (doc : Value) (path : String) (value : Value) (sep : Char)
    (hne : (put doc path value sep).1 ≠ .ret true) : (put doc path value sep).2 = doc := by
  cases hg : getCaught doc path sep with
  | error e => simp [put, hg]
  | ok entry =>
      by_cases heq : pyEq entry value = true
      · simp [put, hg, heq]
      · rcases ha : add_entry doc path value sep with ⟨ra, da⟩
        cases ra with
        | error e2 => simp [put, hg, heq, ha]
        | ok o =>
            cases o with
            | none => simp [put, hg, heq, ha]
            | some res =>
                by_cases hp0 : path = ""
                · subst hp0
                  by_cases hcv : isContainer res = true
                  · exfalso
                    apply hne
                    simp [put, hg, heq, ha, hcv]
                  · simp [put, hg, heq, ha, hcv]
                · exfalso
                  apply hne
                  simp [put, hg, heq, ha, hp0]

theorem updListSearch_preserve (doc : Value) (path : String) (xs : List Value)
    (value : Value) (sep : Char)
    (hne : (updListSearch doc path xs value sep).1 ≠ .ret true) :
    (updListSearch doc path xs value sep).2 = doc := by
  cases hf : pyIndexOf xs value with
  | none =>
      exfalso
      apply hne
      simp [updListSearch, hf]
  | some n => simp [updListSearch, hf]

theorem updListInd_preserve (doc : Value) (path : String) (xs : List Value) (i : Int)
    (value : Value) (sep : Char)
    (hne : (updListInd doc path xs i value sep).1 ≠ .ret true) :
    (updListInd doc path xs i value sep).2 = doc := by
  cases hp : pyIdx i xs.length with
  | none => simp [updListInd, hp]
  | some n =>
      by_cases heq : pyEq (xs.getD n .null) value = true
      · have heq' : pyEq (xs[n]?.getD Value.null) value = true := by
          simpa [List.getD_eq_getElem?_getD] using heq
        have hred : updListInd doc path xs i value sep = updListSearch doc path xs value sep := by
          simp [updListInd, hp, heq']
        rw [hred] at hne ⊢
        exact updListSearch_preserve doc path xs value sep hne
      · have heq' : pyEq (xs[n]?.getD Value.null) value = false := by
          have h0 : pyEq (xs.getD n Value.null) value = false := by simpa using heq
          simpa [List.getD_eq_getElem?_getD] using h0
        exfalso
        apply hne
        simp [updListInd, hp, heq']

theorem update_preserve (doc : Value) (path : String) (value : Value) (index : Option Int)
    (cv : Value) (sep : Char)
    (hne : (update doc path value index cv sep).1 ≠ .ret true) :
    (update doc path value index cv sep).2 = doc := by
  cases hg : getCaught doc path sep with
  | error e => simp [update, hg]
  | ok entry =>
      cases entry with
      | dict kvs =>
          cases value with
          | dict vkvs =>
              exfalso
              apply hne
              simp [update, hg]
          | null => simp [update, hg]
          | bool b => simp [update, hg]
          | int n => simp [update, hg]
          | str s => simp [update, hg]
          | list xs => simp [update, hg]
      | list xs =>
          by_cases ht : pyTruthy cv = true
          · cases hf : pyIndexOf xs cv with
            | none => simp [update, hg, ht, hf]
            | some n =>
                have hred : update doc path value index cv sep =
                    updListInd doc path xs (Int.ofNat n) value sep := by
                  simp [update, hg, ht, hf]
                rw [hred] at hne ⊢
                exact updListInd_preserve doc path xs (Int.ofNat n) value sep hne
          · cases index with
            | some i =>
                have hred : update doc path value (some i) cv sep =
                    updListInd doc path xs i value sep := by
                  simp [update, hg, ht]
                rw [hred] at hne ⊢
                exact updListInd_preserve doc path xs i value sep hne
            | none =>
                have hred : update doc path value none cv sep =
                    updListSearch doc path xs value sep := by
                  simp [update, hg, ht]
                rw [hred] at hne ⊢
                exact updListSearch_preserve doc path xs value sep hne
      | null => simp [update, hg]
      | bool b => simp [update, hg]
      | int n => simp [update, hg]
      | str s => simp [update, hg]

theorem delete_preserve (doc : Value) (path : String) (index : Option Int)
    (dval : Option Value) (sep : Char)
    (hne : (delete doc path index dval sep).1 ≠ .ret true) :
    (delete doc path index dval sep).2 = doc := by
  cases hg : getCaught doc path sep with
  | error e => simp [delete, hg]
  | ok entry =>
      by_cases hn : isNull entry = true
      · simp [delete, hg, hn]
      · rcases hr : remove_entry doc path index dval sep with ⟨rr, dr⟩
        cases rr with
        | error e =>
            have hdr : dr = doc := remove_entry_preserve doc path index dval sep _ _ hr
              (by intro hx; cases hx)
            simp [delete, hg, hn, hr, hdr]
        | ok res =>
            cases res with
            | none =>
                have hdr : dr = doc := remove_entry_preserve doc path index dval sep _ _ hr
                  (by intro hx; cases hx)
                simp [delete, hg, hn, hr, hdr]
            | some b =>
                cases b with
                | true =>
                    exfalso
                    apply hne
                    simp [delete, hg, hn, hr]
                | false =>
                    have hdr : dr = doc := remove_entry_preserve doc path index dval sep _ _ hr
                      (by intro hx; simp at hx)
                    simp [delete, hg, hn, hr, hdr]

/-- C2: a failed mutation from `put`, `update` or `delete` — whether it
returns changed=false or raises an error — leaves the store's observable
document value-for-value unchanged: any outcome other than a changed=true
return preserves the document, and in particular both a changed=false
return and a raised exception hand back exactly the pre-call document
(the write either happened on a copy or only after all failure
checks). -/
theorem c2_failed_mutation_unchanged (doc : Value) (path : String) (value : Value)
    (index : Option Int) (cv : Value) (dval : Option Value) (sep : Char) :
    ((put doc path value sep).1 ≠ .ret true → (put doc path value sep).2 = doc) ∧
    ((update doc path value index cv sep).1 ≠ .ret true →
      (update doc path value index cv sep).2 = doc) ∧
    ((delete doc path index dval sep).1 ≠ .ret true →
      (delete doc path index dval sep).2 = doc) ∧
    (∀ d, put doc path value sep = (.ret false, d) → d = doc) ∧
    (∀ e d, put doc path value sep = (.exc e, d) → d = doc) ∧
    (∀ d, update doc path value index cv sep = (.ret false, d) → d = doc) ∧
    (∀ e d, update doc path value index cv sep = (.exc e, d) → d = doc) ∧
    (∀ d, delete doc path index dval sep = (.ret false, d) → d = doc) ∧
    (∀ e d, delete doc path index dval sep = (.exc e, d) → d = doc) := by
  refine ⟨put_preserve doc path value sep,
    update_preserve doc path value index cv sep,
    delete_preserve doc path index dval sep, ?_, ?_, ?_, ?_, ?_, ?_⟩
  · intro d h
    have h2 := put_preserve doc path value sep (by rw [h]; simp)
    rw [h] at h2
    exact h2
  · intro e d h
    have h2 := put_preserve doc path value sep (by rw [h]; simp)
    rw [h] at h2
    exact h2
  · intro d h
    have h2 := update_preserve doc path value index cv sep (by rw [h]; simp)
    rw [h] at h2
    exact h2
  · intro e d h
    have h2 := update_preserve doc path value index cv sep (by rw [h]; simp)
    rw [h] at h2
    exact h2
  · intro d h
    have h2 := delete_preserve doc path index dval sep (by rw [h]; simp)
    rw [h] at h2
    exact h2
  · intro e d h
    have h2 := delete_preserve doc path index dval sep (by rw [h]; simp)
    rw [h] at h2
    exact h2

/-- Witness for C2 exercising both failure modes of all three
operations: a `put` of an already-present value, an `update` with an
absent current value and a `delete` of a missing key each report
changed=false; a `put` through a scalar (path conflict), an `update`
merging a scalar into a mapping and a `delete` by an out-of-range index
each raise; in all six cases the document is intact afterwards. -/
theorem c2_failed_mutation_unchanged_witness :
    (put (.dict [("a", .int 1)]) "a" (.int 1) '.').2 = .dict [("a", .int 1)] ∧
    (put (.dict [("a", .int 1)]) "a.b" (.int 2) '.').1 = .exc .yeditException ∧
    (put (.dict [("a", .int 1)]) "a.b" (.int 2) '.').2 = .dict [("a", .int 1)] ∧
    (update (.dict [("a", .list [.int 1])]) "a" (.int 9) none (.int 7) '.').2 =
      .dict [("a", .list [.int 1])] ∧
    (update (.dict [("a", .dict [("b", .int 1)])]) "a" (.int 5) none .null '.').1 =
      .exc .yeditException ∧
    (update (.dict [("a", .dict [("b", .int 1)])]) "a" (.int 5) none .null '.').2 =
      .dict [("a", .dict [("b", .int 1)])] ∧
    (delete (.dict [("a", .int 1)]) "b" none none '.').2 = .dict [("a", .int 1)] ∧
    (delete (.list [.int 1]) "" (some 5) none '.').1 = .exc .indexError ∧
    (delete (.list [.int 1]) "" (some 5) none '.').2 = .list [.int 1] :=
  ⟨(c2_failed_mutation_unchanged (.dict [("a", .int 1)]) "a" (.int 1) none .null none '.').1
     (by intro hx; cases hx),
   rfl,
   (c2_failed_mutation_unchanged (.dict [("a", .int 1)]) "a.b" (.int 2) none .null none '.').1
     (by intro hx; cases hx),
   (c2_failed_mutation_unchanged (.dict [("a", .list [.int 1])]) "a" (.int 9) none
      (.int 7) none '.').2.1 (by intro hx; cases hx),
   rfl,
   (c2_failed_mutation_unchanged (.dict [("a", .dict [("b", .int 1)])]) "a" (.int 5) none
      .null none '.').2.1 (by intro hx; cases hx),
   (c2_failed_mutation_unchanged (.dict [("a", .int 1)]) "b" (.int 0) none .null none '.').2.2.1
     (by intro hx; cases hx),
   rfl,
   (c2_failed_mutation_unchanged (.list [.int 1]) "" (.int 0) (some 5) .null none '.').2.2.1
     (by intro hx; cases hx)⟩

/-- A token that cannot raise `IndexError`: any map key, or a
nonnegative list index. -/
def tokNonneg : Token → Bool
  | .idx i => decide (0 ≤ i)
  | .key _ => true

theorem walkGet_total_nonneg : ∀ (toks : List Token) (d : Value),
    toks.all tokNonneg = true → ∃ v, walkGet d toks = .ok v
  | [], d, _ => ⟨d, rfl⟩
  | t :: rest, d, h => by
      have hall : tokNonneg t = true ∧ rest.all tokNonneg = true := by
        simpa [List.all_cons] using h
      cases t with
      | key k =>
          cases d with
          | dict kvs => exact walkGet_total_nonneg rest (dGet kvs k) hall.2
          | null => exact ⟨.null, rfl⟩
          | bool b => exact ⟨.null, rfl⟩
          | int n => exact ⟨.null, rfl⟩
          | str s => exact ⟨.null, rfl⟩
          | list xs => exact ⟨.null, rfl⟩
      | idx i =>
          have hi : 0 ≤ i := by simpa [tokNonneg] using hall.1
          cases d with
          | list xs =>
              by_cases hg : i ≤ (xs.length : Int) - 1
              · cases hp : pyIdx i xs.length with
                | none =>
                    exfalso
                    rw [pyIdx, if_pos hi, if_pos (by omega)] at hp
                    cases hp
                | some n =>
                    obtain ⟨v, hv⟩ := walkGet_total_nonneg rest (xs.getD n .null) hall.2
                    refine ⟨v, ?_⟩
                    rw [walkGet, if_pos hg, hp]
                    exact hv
              · exact ⟨.null, by rw [walkGet, if_neg hg]⟩
          | null => exact ⟨.null, rfl⟩
          | bool b => exact ⟨.null, rfl⟩
          | int n => exact ⟨.null, rfl⟩
          | str s => exact ⟨.null, rfl⟩
          | dict kvs => exact ⟨.null, rfl⟩

/-- C3 counterexample: reading `a[-5]` from `{"a": [1, 2]}` raises an
uncaught `IndexError` — the guard `int(arr_ind) <= len(data) - 1` passes
for every negative index and Python indexing then faults — so `get` is
not fault-free on out-of-range negative indices, contrary to the
claim. -/
theorem c3_counterexample_negative_index :
    get_entry (.dict [("a", .list [.int 1, .int 2])]) "a[-5]" '.' = .error .indexError ∧
    Yedit.get (.dict [("a", .list [.int 1, .int 2])]) "a[-5]" '.' = .error .indexError :=
  ⟨rfl, rfl⟩

/-- C3 (amended): for paths whose list indices are all nonnegative, the
read path never faults — missing keys, wrong container types and
nonnegative out-of-range indices all yield the absent result; a negative
in-range index addresses from the end; only a negative index whose
magnitude exceeds the sequence length raises `IndexError`. -/
theorem c3_read_never_faults_nonneg :
    (∀ (doc : Value) (key : String) (sep : Char),
      (parse_key key sep).all tokNonneg = true →
      (∃ v, get_entry doc key sep = .ok v) ∧ ∃ v, Yedit.get doc key sep = .ok v) ∧
    get_entry (.dict [("a", .list [.int 1, .int 2])]) "a[5]" '.' = .ok .null ∧
    get_entry (.dict [("a", .dict [("b", .int 1)])]) "a.b.c" '.' = .ok .null ∧
    get_entry (.dict [("a", .list [.int 1, .int 2])]) "a[-1]" '.' = .ok (.int 2) := by
  refine ⟨?_, rfl, rfl, rfl⟩
  intro doc key sep hook
  have hmain : ∃ v, get_entry doc key sep = .ok v := by
    rw [get_entry]
    split
    · exact ⟨.null, rfl⟩
    · exact walkGet_total_nonneg (parse_key key sep) doc hook
  obtain ⟨v, hv⟩ := hmain
  exact ⟨⟨v, hv⟩, ⟨v, by rw [Yedit.get, getCaught, hv]⟩⟩

/-- Witness for the amended C3 at a concrete input with a nonnegative
index. -/
theorem c3_read_never_faults_nonneg_witness :
    ∃ v, get_entry (.dict [("x", .int 3)]) "x[0].y" '.' = .ok v :=
  ((c3_read_never_faults_nonneg.1 (.dict [("x", .int 3)]) "x[0].y" '.' rfl).1)

/-- C4 counterexample: the path `a#b` is accepted by the validator with
active delimiter `.`, and it parses to the single map-key token `a#b`,
which contains the reserved non-active character `#` — so a map-key
token accepted by validate can contain a reserved delimiter character
other than the active one. -/
theorem c4_counterexample_reserved_char_accepted :
    valid_key "a#b" '.' = true ∧
    parse_key "a#b" '.' = [.key "a#b"] ∧
    "a#b".toList.contains '#' = true ∧ ('#' == '.') = false := by
  refine ⟨rfl, by decide, by decide, by decide⟩

/-- C4 (amended): the key-character class of the validation regex
literally excludes all four reserved separator characters for every
choice of active delimiter — the separator is never interpolated,
because `str.format` substitutes `{}` and the pattern holds `%s`, so the
compiled validation pattern does not depend on the separator at all —
yet validate still accepts paths whose parsed map-key tokens contain
non-active reserved characters, since the grammar permits one arbitrary
character after each token. -/
theorem c4_amended_validation_class :
    (∀ c ∈ comSep, vkChar c = false) ∧
    (∀ (sep sep' : Char) (key : String), valid_key key sep = valid_key key sep') ∧
    valid_key "a#b" '.' = true ∧
    valid_key "a|b" '.' = true ∧
    parse_key "a|b" '.' = [.key "a|b"] := by
  refine ⟨by decide, fun sep sep' key => rfl, rfl, rfl, by decide⟩

/-- C9: the documented path-grammar examples hold: `a.b[0].c` validates,
`a..b` does not, `a#b` validates under the default delimiter `.` (the
reserved character is literal content there), and under delimiter `#`
the path `a.b` parses to the single map-key token `a.b` (splitting
happens on `#`, not `.`). -/
theorem c9_path_grammar_examples :
    valid_key "a.b[0].c" '.' = true ∧
    valid_key "a..b" '.' = false ∧
    valid_key "a#b" '.' = true ∧
    parse_key "a.b" '#' = [.key "a.b"] := by
  refine ⟨rfl, rfl, rfl, by decide⟩

theorem pyIndexOf_lt : ∀ (xs : List Value) (v : Value) (n : Nat),
    pyIndexOf xs v = some n → n < xs.length
  | [], _, _, h => by cases h
  | x :: rest, v, n, h => by
      rw [pyIndexOf] at h
      by_cases hpe : pyEq x v = true
      · rw [if_pos hpe] at h
        simp only [Option.some.injEq] at h
        subst h
        simp
      · rw [if_neg hpe] at h
        cases hr : pyIndexOf rest v with
        | none => rw [hr] at h; cases h
        | some m =>
            rw [hr] at h
            simp only [Option.map_some', Option.some.injEq] at h
            subst h
            have := pyIndexOf_lt rest v m hr
            simp only [List.length_cons]
            omega

theorem pyIdx_natCast {n len : Nat} (h : n < len) : pyIdx (n : Int) len = some n := by
  rw [pyIdx, if_pos (Int.natCast_nonneg n), if_pos (by exact_mod_cast h)]
  simp

/-- C5 counterexample: with the falsy current value `0`, which is absent
from the sequence `[1, 2, 3]`, the claim demands changed=false and an
unchanged document, but the code treats a falsy `curr_value` as "not
supplied" (`if curr_value:`), falls through to the search-by-value tail
and appends 99 with changed=true. -/
theorem c5_counterexample_falsy_curr_value :
    update (.dict [("a", .list [.int 1, .int 2, .int 3])]) "a" (.int 99) none (.int 0) '.' =
      (.ret true, .dict [("a", .list [.int 1, .int 2, .int 3, .int 99])]) := rfl

/-- C5 (amended): the edit position is resolved by `curr_value` only
when `curr_value` is truthy (a falsy one such as `0` or `None` counts as
not supplied).  A truthy `curr_value` absent from the sequence yields
changed=false with the document unchanged, taking priority over any
explicit index; when found at a slot holding an element that differs
from `value`, that slot is overwritten in place with changed=true.  With
no truthy `curr_value` and no index, the sequence is searched for
`value` itself: present means changed=false, absent means append with
changed=true.  The claim's concrete examples hold as stated. -/
theorem c5_sequence_update_semantics :
    (update (.dict [("a", .list [.int 1, .int 2, .int 3])]) "a" (.int 99) none (.int 2) '.' =
      (.ret true, .dict [("a", .list [.int 1, .int 99, .int 3])])) ∧
    (update (.dict [("a", .list [.int 1, .int 2, .int 3])]) "a" (.int 99) none (.int 42) '.' =
      (.ret false, .dict [("a", .list [.int 1, .int 2, .int 3])])) ∧
    (∀ (xs : List Value) (v cv : Value) (idx : Option Int) (sep : Char),
      pyTruthy cv = true → pyIndexOf xs cv = none →
      update (.list xs) "" v idx cv sep = (.ret false, .list xs)) ∧
    (∀ (xs : List Value) (v cv : Value) (idx : Option Int) (sep : Char) (n : Nat),
      pyTruthy cv = true → pyIndexOf xs cv = some n →
      pyEq (xs.getD n .null) v = false →
      update (.list xs) "" v idx cv sep = (.ret true, .list (xs.set n v))) ∧
    (∀ (xs : List Value) (v : Value) (sep : Char),
      pyIndexOf xs v = none →
      update (.list xs) "" v none .null sep = (.ret true, .list (xs ++ [v]))) ∧
    (∀ (xs : List Value) (v : Value) (sep : Char) (n : Nat),
      pyIndexOf xs v = some n →
      update (.list xs) "" v none .null sep = (.ret false, .list xs)) := by
  refine ⟨rfl, rfl, ?_, ?_, ?_, ?_⟩
  · intro xs v cv idx sep ht hf
    have hgc : getCaught (.list xs) "" sep = .ok (.list xs) :=
      getCaught_of_ok (get_entry_empty _ _)
    simp [update, hgc, ht, hf]
  · intro xs v cv idx sep n ht hf heq
    have hgc : getCaught (.list xs) "" sep = .ok (.list xs) :=
      getCaught_of_ok (get_entry_empty _ _)
    have hn : n < xs.length := pyIndexOf_lt xs cv n hf
    have heq' : pyEq (xs[n]?.getD Value.null) v = false := by
      simpa [List.getD_eq_getElem?_getD] using heq
    simp [update, hgc, ht, hf, updListInd, pyIdx_natCast hn, heq', parse_key_empty, modWalk]
  · intro xs v sep hf
    have hgc : getCaught (.list xs) "" sep = .ok (.list xs) :=
      getCaught_of_ok (get_entry_empty _ _)
    simp [update, hgc, pyTruthy, updListSearch, hf, parse_key_empty, modWalk]
  · intro xs v sep n hf
    have hgc : getCaught (.list xs) "" sep = .ok (.list xs) :=
      getCaught_of_ok (get_entry_empty _ _)
    simp [update, hgc, pyTruthy, updListSearch, hf]

/-- Witness for the amended C5: a truthy current value absent from the
sequence gives changed=false with an unchanged document even when an
explicit index is supplied. -/
theorem c5_sequence_update_semantics_witness :
    update (.list [.int 1]) "" (.int 7) (some 3) (.int 5) '.' = (.ret false, .list [.int 1]) :=
  c5_sequence_update_semantics.2.2.1 [.int 1] (.int 7) (.int 5) (some 3) '.' rfl rfl

theorem existsDictLoop_true_iff : ∀ (vkvs kvs : List (String × Value)),
    existsDictLoop vkvs kvs = .ok true ↔
      ∀ kv ∈ vkvs, ∃ w, kvs.lookup kv.1 = some w ∧ pyEq w kv.2 = true
  | [], kvs => by simp [existsDictLoop]
  | (k, v) :: rest, kvs => by
      cases hl : kvs.lookup k with
      | none =>
          have hred : existsDictLoop ((k, v) :: rest) kvs = .error .keyError := by
            rw [existsDictLoop, hl]
          rw [hred]
          constructor
          · intro h
            exact Except.noConfusion h
          · intro h
            obtain ⟨w, hw, _⟩ := h (k, v) (by simp)
            rw [hl] at hw
            cases hw
      | some w =>
          have hred : existsDictLoop ((k, v) :: rest) kvs =
              if pyEq w v = true then existsDictLoop rest kvs else Except.ok false := by
            rw [existsDictLoop, hl]
          rw [hred]
          by_cases hpe : pyEq w v = true
          · rw [if_pos hpe]
            rw [existsDictLoop_true_iff rest kvs]
            constructor
            · intro h kv hkv
              rcases List.mem_cons.mp hkv with hkv | hkv
              · subst hkv
                exact ⟨w, hl, hpe⟩
              · exact h kv hkv
            · intro h kv hkv
              exact h kv (List.mem_cons_of_mem _ hkv)
          · rw [if_neg hpe]
            constructor
            · intro h
              simp at h
            · intro h
              obtain ⟨w', hw', hpe'⟩ := h (k, v) (by simp)
              rw [hl] at hw'
              simp only [Option.some.injEq] at hw'
              subst hw'
              exact absurd hpe' hpe

theorem existsDictLoop_keyError : ∀ (vkvs kvs : List (String × Value)),
    (∀ kv ∈ vkvs, ∀ w, kvs.lookup kv.1 = some w → pyEq w kv.2 = true) →
    (∃ kv ∈ vkvs, kvs.lookup kv.1 = none) →
    existsDictLoop vkvs kvs = .error .keyError
  | [], kvs, _, hex => by simp at hex
  | (k, v) :: rest, kvs, hall, hex => by
      cases hl : kvs.lookup k with
      | none => rw [existsDictLoop, hl]
      | some w =>
          have hred : existsDictLoop ((k, v) :: rest) kvs =
              if pyEq w v = true then existsDictLoop rest kvs else Except.ok false := by
            rw [existsDictLoop, hl]
          rw [hred, if_pos (hall (k, v) (by simp) w hl)]
          apply existsDictLoop_keyError rest kvs
          · intro kv hkv w' hw'
            exact hall kv (List.mem_cons_of_mem _ hkv) w' hw'
          · obtain ⟨kv, hkv, hnone⟩ := hex
            rcases List.mem_cons.mp hkv with hkv | hkv
            · subst hkv
              rw [hl] at hnone
              cases hnone
            · exact ⟨kv, hkv, hnone⟩

/-- C6 counterexample: probing the mapping at `x` in
`{"x": {"a": 1}}` with the mapping `{"b": 2}` whose key `b` is missing
from the target raises `KeyError` (`entry[key]` is an unguarded
subscript), instead of returning false as claimed. -/
theorem c6_counterexample_missing_probe_key :
    existsOp (.dict [("x", .dict [("a", .int 1)])]) "x" (.dict [("b", .int 2)]) '.' =
      .error .keyError := rfl

/-- C6 (amended): for a mapping at the path and a mapping probe,
`exists` returns true exactly when every key of the probe is present in
the target with a Python-equal value (extra target keys ignored); but
when some probe key is missing from the target (and the present ones all
match, so the loop reaches the missing key), the call raises `KeyError`
rather than returning false. -/
theorem c6_exists_partial_match (doc : Value) (path : String)
    (kvs vkvs : List (String × Value)) (sep : Char)
    (hge : get_entry doc path sep = .ok (.dict kvs)) :
    (existsOp doc path (.dict vkvs) sep = .ok true ↔
      ∀ kv ∈ vkvs, ∃ w, kvs.lookup kv.1 = some w ∧ pyEq w kv.2 = true) ∧
    ((∀ kv ∈ vkvs, ∀ w, kvs.lookup kv.1 = some w → pyEq w kv.2 = true) →
      (∃ kv ∈ vkvs, kvs.lookup kv.1 = none) →
      existsOp doc path (.dict vkvs) sep = .error .keyError) := by
  have hloop : existsOp doc path (.dict vkvs) sep = existsDictLoop vkvs kvs := by
    simp [existsOp, getCaught_of_ok hge]
  rw [hloop]
  exact ⟨existsDictLoop_true_iff vkvs kvs, existsDictLoop_keyError vkvs kvs⟩

/-- Witness for the amended C6: a partial match with an extra key in the
target returns true. -/
theorem c6_exists_partial_match_witness :
    existsOp (.dict [("x", .dict [("a", .int 1), ("c", .int 3)])]) "x"
      (.dict [("a", .int 1)]) '.' = .ok true :=
  (c6_exists_partial_match (.dict [("x", .dict [("a", .int 1), ("c", .int 3)])]) "x"
      [("a", .int 1), ("c", .int 3)] [("a", .int 1)] '.' rfl).1.mpr
    (by
      intro kv hkv
      have : kv = ("a", Value.int 1) := by simpa using hkv
      subst this
      exact ⟨.int 1, rfl, rfl⟩)

/-- C7: `put` with the empty path (root replace) never raises; it
installs the value as the new root with changed=true only when the value
is a mapping or a sequence (and the root does not already equal it),
and with a scalar value it returns changed=false leaving the document
unchanged. -/
theorem c7_root_replace (doc v : Value) (sep : Char) :
    (∀ e d, put doc "" v sep ≠ (.exc e, d)) ∧
    (∀ d, put doc "" v sep = (.ret true, d) → d = v ∧ isContainer v = true) ∧
    (isContainer v = true → pyEq doc v = false → put doc "" v sep = (.ret true, v)) ∧
    (isContainer v = false → put doc "" v sep = (.ret false, doc)) := by
  have hgc : getCaught doc "" sep = .ok doc := getCaught_of_ok (get_entry_empty doc sep)
  have ha0 : add_entry doc "" v sep = (Except.ok (some v), doc) := rfl
  by_cases heq : pyEq doc v = true
  · have hput : put doc "" v sep = (.ret false, doc) := by
      simp [put, hgc, heq]
    rw [hput]
    refine ⟨fun e d h => by simp at h, fun d h => by simp at h, ?_, fun _ => rfl⟩
    intro _ hne
    rw [heq] at hne
    cases hne
  · by_cases hcv : isContainer v = true
    · have hput : put doc "" v sep = (.ret true, v) := by
        simp [put, hgc, heq, ha0, hcv]
      rw [hput]
      refine ⟨fun e d h => by simp at h, ?_, fun _ _ => rfl, ?_⟩
      · intro d h
        simp only [Prod.mk.injEq, PyOut.ret.injEq] at h
        exact ⟨h.2.symm, hcv⟩
      · intro hc
        rw [hcv] at hc
        cases hc
    · have hput : put doc "" v sep = (.ret false, doc) := by
        simp [put, hgc, heq, ha0, hcv]
      rw [hput]
      refine ⟨fun e d h => by simp at h, fun d h => by simp at h, ?_, fun _ => rfl⟩
      intro hc
      exact absurd hc hcv

/-- Witness for C7: a root replace with the scalar 7 is rejected with
changed=false and no error. -/
theorem c7_root_replace_witness :
    put (.dict [("a", .int 1)]) "" (.int 7) '.' = (.ret false, .dict [("a", .int 1)]) :=
  (c7_root_replace (.dict [("a", .int 1)]) (.int 7) '.').2.2.2 rfl

/-- C10: whenever the read of a path yields the `None` sentinel — which
covers both a genuinely absent location and a stored null — `put` of the
Python `None` value is a no-op with changed=false, because the absent
result and the null value are the same object and the `entry == value`
check fires; so a null can never be newly installed by `put`. -/
theorem c10_put_null_noop (doc : Value) (path : String) (sep : Char)
    (h : get_entry doc path sep = .ok .null) :
    put doc path .null sep = (.ret false, doc) := by
  simp [put, getCaught_of_ok h, pyEq]

/-- Witness for C10: putting `None` at the absent key `a` of the empty
mapping changes nothing. -/
theorem c10_put_null_noop_witness :
    put (.dict []) "a" .null '.' = (.ret false, .dict []) :=
  c10_put_null_noop (.dict []) "a" '.' rfl

/-- C8: the batch processor applies edits strictly in input order — a
batch split as `es1 ++ es2` runs `es2` against the document produced by
`es1`, with the collected records concatenated in input order; the
aggregate changed flag is true exactly when at least one record was
collected (i.e. some edit reported a change); and two `put` edits to the
same path leave the document reflecting the second value, both recorded
in input order. -/
theorem c8_batch_order_and_changed :
    (∀ (es1 es2 : List Edit) (doc : Value) (sep : Char) (rs : List (String × Value))
        (d : Value) (rs2 : List (String × Value)) (d' : Value),
      editsWalk es1 doc sep = (.ok rs, d) →
      editsWalk es2 d sep = (.ok rs2, d') →
      editsWalk (es1 ++ es2) doc sep = (.ok (rs ++ rs2), d')) ∧
    (∀ (edits : List Edit) (doc : Value) (sep : Char) (ch : Bool)
        (rs : List (String × Value)) (d : Value),
      process_edits edits doc sep = (.ok (ch, rs), d) → (ch = true ↔ rs ≠ [])) ∧
    (process_edits
        [⟨"a", .int 1, none, "", none, .null, none⟩,
         ⟨"a", .int 2, none, "", none, .null, none⟩]
        (.dict []) '.' =
      (.ok (true, [("a", .dict [("a", .int 1)]), ("a", .dict [("a", .int 2)])]),
        .dict [("a", .int 2)])) := by
  refine ⟨?_, ?_, rfl⟩
  · intro es1
    induction es1 with
    | nil =>
        intro es2 doc sep rs d rs2 d' h1 h2
        rw [editsWalk] at h1
        simp only [Prod.mk.injEq, Except.ok.injEq] at h1
        obtain ⟨hrs, hd⟩ := h1
        subst hrs
        subst hd
        simpa using h2
    | cons e rest ih =>
        intro es2 doc sep rs d rs2 d' h1 h2
        rcases hap : applyEdit e doc sep with ⟨ae, ad⟩
        cases ae with
        | error er =>
            rw [editsWalk, hap] at h1
            simp at h1
        | ok changed =>
            rcases hw : editsWalk rest ad sep with ⟨wr, wd⟩
            cases wr with
            | error er =>
                rw [editsWalk, hap] at h1
                simp only [hw] at h1
                simp at h1
            | ok rs1 =>
                rw [editsWalk, hap] at h1
                simp only [hw, Prod.mk.injEq, Except.ok.injEq] at h1
                obtain ⟨hrs, hd⟩ := h1
                subst hd
                have hih := ih es2 ad sep rs1 wd rs2 d' hw h2
                rw [List.cons_append, editsWalk, hap]
                simp only [hih]
                rw [← hrs]
                simp [List.append_assoc]
  · intro edits doc sep ch rs d h
    rcases hw : editsWalk edits doc sep with ⟨wr, wd⟩
    cases wr with
    | error er =>
        rw [process_edits, hw] at h
        simp at h
    | ok rs1 =>
        rw [process_edits, hw] at h
        simp only [Prod.mk.injEq, Except.ok.injEq] at h
        obtain ⟨⟨hch, hrs⟩, _⟩ := h
        subst hrs
        subst hch
        constructor
        · intro hd
          simp only [decide_eq_true_eq] at hd
          intro hnil
          subst hnil
          simp at hd
        · intro hne
          simp only [decide_eq_true_eq]
          cases rs1 with
          | nil => exact absurd rfl hne
          | cons a b => simp

/-- Witness for C8: a single changing edit yields an aggregate changed
flag that is true together with a nonempty record list. -/
theorem c8_batch_order_and_changed_witness :
    (true = true ↔ ([("a", Value.dict [("a", Value.int 1)])] : List (String × Value)) ≠ []) :=
  c8_batch_order_and_changed.2.1 [⟨"a", .int 1, none, "", none, .null, none⟩]
    (.dict []) '.' true [("a", .dict [("a", .int 1)])] (.dict [("a", .int 1)]) rfl

/-- Witness for the amended C4: the reserved character `#` is outside
the validation key-character class, and the validation result is
independent of the chosen separator. -/
theorem c4_amended_validation_class_witness :
    vkChar '#' = false ∧ valid_key "q" '|' = valid_key "q" '.' :=
  ⟨c4_amended_validation_class.1 '#' (by decide),
   c4_amended_validation_class.2.1 '|' '.' "q"⟩
